import Mathlib

/-!
Verification of the comment-threading and unread-notification subsystem of
the client-lens repository, against a shallow embedding of its TypeScript
source.  The embedding covers:

* src/client/src/lib/commentUtils.ts       (buildCommentTree)
* src/client/src/components/PDFWithComments.tsx
                                            (pin filtering and numbering)
* src/server/storage.ts                     (getProjectsWithCommentStats,
                                             updateProjectView)
* src/server/routes.ts + src/shared/schema.ts
                                            (POST /api/comments validation)

Conventions of the embedding:

* Database rows become Lean structures; `timestamp with time zone` values
  become `Int` epoch milliseconds (the code always compares dates through
  `Date.prototype.getTime`/`valueOf`, which is exactly this integer).
* Nullable columns and absent JS values become `Option`.
* `Array.prototype.sort` with a numeric comparator is a stable sort
  (ECMAScript 2019); it is modelled by `List.insertionSort`, which is also
  stable, over the comparator key.
* Comment ids are primary-key values, so lists of comments drawn from the
  store have pairwise distinct ids; theorems that need this carry an
  explicit `Nodup` hypothesis on the ids.
* JS truthiness of `comment.parentId` (a `string | null` column) is
  modelled by `parentRef`: `null` and the empty string are falsy.
-/

namespace ClientLens

/-- One row of the `comments` table (src/shared/schema.ts).  All nullable
columns are `Option`; timestamps are epoch milliseconds. -/
structure Comment where
  id : String
  fileId : String
  parentId : Option String
  name : String
  email : Option String
  content : String
  tag : String
  positionX : Option Int
  positionY : Option Int
  timestamp : Option Int
  page : Option Int
  createdAt : Int
  updatedAt : Int
deriving DecidableEq, Repr

/-- The truthiness test `if (comment.parentId)` used by the tree builder
and the pin filters: `null` and `""` are falsy, any other string is the
parent id that gets looked up. -/
def parentRef (c : Comment) : Option String :=
  match c.parentId with
  | none => none
  | some s => if s = "" then none else some s

/-- Comparator key order used by every `.sort((a, b) =>
new Date(a.createdAt).getTime() - new Date(b.createdAt).getTime())` call. -/
def byCreatedAt (a b : Comment) : Prop := a.createdAt ≤ b.createdAt

instance : DecidableRel byCreatedAt := fun a b => Int.decLe a.createdAt b.createdAt

instance : IsTotal Comment byCreatedAt := ⟨fun a b => le_total a.createdAt b.createdAt⟩

instance : IsTrans Comment byCreatedAt := ⟨fun _ _ _ h h' => le_trans h h'⟩

/-- The stable ascending-by-`createdAt` sort. -/
def sortByCreatedAt (l : List Comment) : List Comment := l.insertionSort byCreatedAt

/-- The node shape produced by `buildCommentTree`: the comment's fields
plus a (recursively nested) list of replies. -/
inductive CommentWithReplies where
  | mk (comment : Comment) (replies : List CommentWithReplies)

def CommentWithReplies.comment : CommentWithReplies → Comment
  | .mk c _ => c

def CommentWithReplies.replies : CommentWithReplies → List CommentWithReplies
  | .mk _ rs => rs

/-- The comments that the second pass of `buildCommentTree` pushes into the
replies list of the node for `c`: those whose (truthy) `parentId` is found
in the id map, i.e. equals the id of `c`.  `List.filter` keeps input order,
which is the push order of the loop. -/
def childComments (cs : List Comment) (c : Comment) : List Comment :=
  cs.filter (fun d => decide (parentRef d = some c.id))

/-- The subtree that `buildCommentTree` hangs below the node for comment
`c`, with every replies list sorted ascending by `createdAt` (the code
sorts after building; as both sorts are stable over the push order the
result is the same).  `fuel` bounds the recursion depth; with ids distinct,
parent chains that start from a root never repeat a comment, so any
`fuel ≥ cs.length` yields the full subtree. -/
def buildNode (cs : List Comment) : Nat → Comment → CommentWithReplies
  | 0, c => .mk c []
  | fuel + 1, c =>
      .mk c ((sortByCreatedAt (childComments cs c)).map (buildNode cs fuel))

/-- Embedding of `buildCommentTree` (src/client/src/lib/commentUtils.ts).
Pass one indexes every comment by id; pass two pushes each comment with a
truthy `parentId` into the replies of the mapped parent when the parent id
is present in the map (and silently drops it otherwise), and pushes each
comment with a falsy `parentId` into `roots`; the final passes sort roots
and every replies list ascending by `createdAt`. -/
def buildCommentTree (cs : List Comment) : List CommentWithReplies :=
  (sortByCreatedAt (cs.filter (fun c => decide (parentRef c = none)))).map
    (buildNode cs cs.length)

/-- All comments appearing in a tree node, to depth `fuel` (matching the
`fuel` used to build it). -/
def flattenNode : Nat → CommentWithReplies → List Comment
  | 0, n => [n.comment]
  | fuel + 1, n => n.comment :: (n.replies.map (flattenNode fuel)).flatten

/-- All comments appearing anywhere in a forest, to depth `fuel`. -/
def forestComments (fuel : Nat) (f : List CommentWithReplies) : List Comment :=
  (f.map (flattenNode fuel)).flatten

/-- `map.get(i)` of the id map built in pass one: the comment of `cs`
carrying id `i` (unique when ids are distinct). -/
def findById (cs : List Comment) (i : String) : Option Comment :=
  cs.find? (fun c => decide (c.id = i))

/-- The parent node a comment gets attached under, if any: its truthy
`parentId` resolved through the id map. -/
def parentComment (cs : List Comment) (c : Comment) : Option Comment :=
  match parentRef c with
  | none => none
  | some p => findById cs p

/-- `k`-fold iterated parent of a comment (`ancestor cs 0 c = some c`);
`none` once the chain leaves the root side of the forest. -/
def ancestor (cs : List Comment) : Nat → Comment → Option Comment
  | 0, c => some c
  | k + 1, c =>
      match parentComment cs c with
      | none => none
      | some p => ancestor cs k p

/-- A comment whose parent chain terminates (reaches a root and stops). -/
def terminates (cs : List Comment) (c : Comment) : Prop :=
  ∃ k, ancestor cs k c = none

/-- Sortedness of every replies list of a node, to depth `fuel`. -/
def repliesSortedTo : Nat → CommentWithReplies → Prop
  | 0, _ => True
  | fuel + 1, n =>
      (n.replies.map CommentWithReplies.comment).Pairwise
        (fun a b => a.createdAt ≤ b.createdAt) ∧
      ∀ r ∈ n.replies, repliesSortedTo fuel r

/-- A comment literal for concrete checks; fields not under scrutiny get
fixed innocuous values. -/
def mkComment (i : String) (pid : Option String) (t : Int) : Comment :=
  { id := i, fileId := "file1", parentId := pid, name := "alice", email := none,
    content := "text", tag := "To Do", positionX := none, positionY := none,
    timestamp := none, page := none, createdAt := t, updatedAt := t }

/-! ### Pin filtering and numbering
(src/client/src/components/PDFWithComments.tsx) -/

/-- `ImageWithComments.rootComments`: root comments with both image anchor
coordinates set, ascending by `createdAt`.  Pins are rendered from this
list with numbers `idx + 1`. -/
def imageRootComments (comments : List Comment) : List Comment :=
  sortByCreatedAt (comments.filter (fun c =>
    decide (parentRef c = none ∧ c.positionX ≠ none ∧ c.positionY ≠ none)))

/-- The rendered image pins: each eligible root paired with its displayed
number `idx + 1`. -/
def imagePins (comments : List Comment) : List (Comment × Nat) :=
  (imageRootComments comments).enum.map (fun ic => (ic.2, ic.1 + 1))

/-- `PDFWithComments.allRootComments`: the numbering domain for PDF pins —
root comments with `page` non-null (positions NOT required), ascending by
`createdAt`. -/
def pdfAllRootComments (comments : List Comment) : List Comment :=
  sortByCreatedAt (comments.filter (fun c =>
    decide (parentRef c = none ∧ c.page ≠ none)))

/-- `PDFWithComments.rootCommentsForPage`: the pins actually rendered on
the displayed page — roots on that page with both positions set,
ascending by `createdAt`. -/
def pdfRootCommentsForPage (comments : List Comment) (currentPage : Int) :
    List Comment :=
  sortByCreatedAt (comments.filter (fun c =>
    decide (parentRef c = none ∧ c.page = some currentPage ∧
      c.positionX ≠ none ∧ c.positionY ≠ none)))

/-- The number displayed on a rendered PDF pin:
`allRootComments.findIndex(c => c.id === comment.id) + 1`. -/
def pdfPinNumber (comments : List Comment) (c : Comment) : Nat :=
  (pdfAllRootComments comments).findIdx (fun d => decide (d.id = c.id)) + 1

/-! ### The relational store and the aggregator (src/server/storage.ts) -/

/-- One row of the `projects` table. -/
structure Project where
  id : String
  publicId : String
  title : String
  userId : String
  createdAt : Int
  updatedAt : Int
deriving DecidableEq, Repr

/-- One row of the `files` table. -/
structure File where
  id : String
  projectId : String
  name : String
  originalName : String
  mimeType : String
  size : String
  objectPath : String
  publicId : Option String
  uploadedAt : Int
deriving DecidableEq, Repr

/-- One row of the `project_views` table. -/
structure ProjectView where
  id : String
  userId : String
  projectId : String
  lastViewedAt : Int
deriving DecidableEq, Repr

/-- The relational store, one list per table. -/
structure Db where
  projects : List Project
  files : List File
  comments : List Comment
  projectViews : List ProjectView
deriving DecidableEq, Repr

def byProjectCreatedAtDesc (a b : Project) : Prop := b.createdAt ≤ a.createdAt

instance : DecidableRel byProjectCreatedAtDesc :=
  fun a b => Int.decLe b.createdAt a.createdAt

def byUploadedAtDesc (a b : File) : Prop := b.uploadedAt ≤ a.uploadedAt

instance : DecidableRel byUploadedAtDesc :=
  fun a b => Int.decLe b.uploadedAt a.uploadedAt

def byCreatedAtDesc (a b : Comment) : Prop := b.createdAt ≤ a.createdAt

instance : DecidableRel byCreatedAtDesc :=
  fun a b => Int.decLe b.createdAt a.createdAt

/-- `select … where userId = ? orderBy desc(createdAt)`. -/
def getProjectsByUserId (db : Db) (userId : String) : List Project :=
  (db.projects.filter (fun p => decide (p.userId = userId))).insertionSort
    byProjectCreatedAtDesc

/-- `select … where projectId = ? orderBy desc(uploadedAt)`. -/
def getFilesByProjectId (db : Db) (projectId : String) : List File :=
  (db.files.filter (fun f => decide (f.projectId = projectId))).insertionSort
    byUploadedAtDesc

/-- `select … where fileId = ? orderBy desc(createdAt)`. -/
def getCommentsByFileId (db : Db) (fileId : String) : List Comment :=
  (db.comments.filter (fun c => decide (c.fileId = fileId))).insertionSort
    byCreatedAtDesc

/-- `getProjectView`: first row matching the (user, project) pair, if
any (`[view] = await …`). -/
def getProjectView (db : Db) (userId projectId : String) : Option ProjectView :=
  db.projectViews.find? (fun v => decide (v.userId = userId ∧ v.projectId = projectId))

/-- `Math.max(...flatComments.map(c => new Date(c.createdAt).getTime()))`;
only evaluated behind a `length > 0` guard, so the `[]` branch is never
read. -/
def maxCreatedAt : List Comment → Int
  | [] => 0
  | c :: rest => rest.foldl (fun m d => max m d.createdAt) c.createdAt

/-- The per-project stats record assembled by `getProjectsWithCommentStats`. -/
structure ProjectCommentStats where
  fileCount : Nat
  totalComments : Nat
  unresolvedComments : Nat
  lastCommentTime : Option Int
  hasUnreadComments : Bool
deriving DecidableEq, Repr

/-- The flattened comment collection of a project (all comments of all its
files). -/
def projectComments (db : Db) (projectId : String) : List Comment :=
  ((getFilesByProjectId db projectId).map (fun f => getCommentsByFileId db f.id)).flatten

/-- The body of the per-project map in `getProjectsWithCommentStats`
(src/server/storage.ts): counts, unresolved filter, `Math.max` last-comment
time, and the unread flag against `projectView?.lastViewedAt || new
Date(0)`. -/
def projectStats (db : Db) (userId : String) (project : Project) :
    ProjectCommentStats :=
  let projectFiles := getFilesByProjectId db project.id
  let flatComments := (projectFiles.map (fun f => getCommentsByFileId db f.id)).flatten
  let lastViewedAt := ((getProjectView db userId project.id).map
    ProjectView.lastViewedAt).getD 0
  { fileCount := projectFiles.length
    totalComments := flatComments.length
    unresolvedComments := (flatComments.filter (fun c =>
      decide (c.tag = "To Do") || decide (c.tag = "In Progress"))).length
    lastCommentTime :=
      if flatComments.length > 0 then some (maxCreatedAt flatComments) else none
    hasUnreadComments := flatComments.any (fun c => decide (lastViewedAt < c.createdAt)) }

/-- `getProjectsWithCommentStats`: every project of the user, enriched. -/
def getProjectsWithCommentStats (db : Db) (userId : String) :
    List (Project × ProjectCommentStats) :=
  (getProjectsByUserId db userId).map (fun p => (p, projectStats db userId p))

/-- `updateProjectView` (src/server/storage.ts): read-then-write upsert of
the (user, project) view row.  If a row exists, the drizzle `update …
where` sets `lastViewedAt` on every matching row; otherwise a fresh row is
inserted. -/
def updateProjectView (db : Db) (userId projectId : String) (now : Int)
    (freshId : String) : Db :=
  match getProjectView db userId projectId with
  | some _ =>
      { db with projectViews := db.projectViews.map (fun v =>
          if v.userId = userId ∧ v.projectId = projectId then
            { v with lastViewedAt := now }
          else v) }
  | none =>
      { db with projectViews := db.projectViews ++
          [{ id := freshId, userId := userId, projectId := projectId,
             lastViewedAt := now }] }

/-- The rows of `project_views` for one (user, project) pair. -/
def viewRows (db : Db) (userId projectId : String) : List ProjectView :=
  db.projectViews.filter (fun v => decide (v.userId = userId ∧ v.projectId = projectId))

/-! ### Comment creation validation
(src/shared/schema.ts insertCommentSchema, src/server/routes.ts
POST /api/comments) -/

/-- A JSON value of a request body, to the granularity the Zod schema
distinguishes. -/
inductive JsonValue where
  | str (s : String)
  | num (n : Int)
  | null
  | other
deriving DecidableEq, Repr

/-- The raw body of `POST /api/comments`: each picked column either absent
or some JSON value. -/
structure CommentRequestBody where
  fileId : Option JsonValue
  parentId : Option JsonValue
  name : Option JsonValue
  email : Option JsonValue
  content : Option JsonValue
  tag : Option JsonValue
  positionX : Option JsonValue
  positionY : Option JsonValue
  timestamp : Option JsonValue
  page : Option JsonValue
deriving DecidableEq, Repr

/-- `z.string()` for a `notNull` column without default (drizzle-zod):
required, any string accepted — including the empty string. -/
def requiredString : Option JsonValue → Option String
  | some (.str s) => some s
  | _ => none

/-- `z.string().nullable().optional()` for a nullable text column. -/
def nullableString : Option JsonValue → Option (Option String)
  | none => some none
  | some .null => some none
  | some (.str s) => some (some s)
  | _ => none

/-- `z.string().optional()` for `tag` (notNull with database default). -/
def optionalString : Option JsonValue → Option (Option String)
  | none => some none
  | some (.str s) => some (some s)
  | _ => none

/-- `z.number().nullable().optional()` for the nullable integer anchor
columns. -/
def nullableInt : Option JsonValue → Option (Option Int)
  | none => some none
  | some .null => some none
  | some (.num n) => some (some n)
  | _ => none

/-- The successfully parsed insert payload. -/
structure InsertComment where
  fileId : String
  parentId : Option String
  name : String
  email : Option String
  content : String
  tag : Option String
  positionX : Option Int
  positionY : Option Int
  timestamp : Option Int
  page : Option Int
deriving DecidableEq, Repr

/-- The paths of the fields that fail the Zod check (`validation.error`
issue paths, in schema order). -/
def fieldIssues (b : CommentRequestBody) : List String :=
  (if (requiredString b.fileId).isSome then [] else ["fileId"]) ++
  (if (nullableString b.parentId).isSome then [] else ["parentId"]) ++
  (if (requiredString b.name).isSome then [] else ["name"]) ++
  (if (nullableString b.email).isSome then [] else ["email"]) ++
  (if (requiredString b.content).isSome then [] else ["content"]) ++
  (if (optionalString b.tag).isSome then [] else ["tag"]) ++
  (if (nullableInt b.positionX).isSome then [] else ["positionX"]) ++
  (if (nullableInt b.positionY).isSome then [] else ["positionY"]) ++
  (if (nullableInt b.timestamp).isSome then [] else ["timestamp"]) ++
  (if (nullableInt b.page).isSome then [] else ["page"])

/-- `insertCommentSchema.safeParse(req.body)`: the parsed payload, or the
list of failing field paths.  When `fieldIssues` is empty every extractor
is `some`, so the `getD` defaults below are never read. -/
def insertCommentSafeParse (b : CommentRequestBody) :
    Except (List String) InsertComment :=
  if fieldIssues b = [] then
    .ok { fileId := (requiredString b.fileId).getD ""
          parentId := (nullableString b.parentId).getD none
          name := (requiredString b.name).getD ""
          email := (nullableString b.email).getD none
          content := (requiredString b.content).getD ""
          tag := (optionalString b.tag).getD none
          positionX := (nullableInt b.positionX).getD none
          positionY := (nullableInt b.positionY).getD none
          timestamp := (nullableInt b.timestamp).getD none
          page := (nullableInt b.page).getD none }
  else .error (fieldIssues b)

/-- `POST /api/comments` (src/server/routes.ts): validate, then persist.
On a validation failure respond 400 with the issues and leave the store
untouched; on success insert the row (database defaults fill `id`, `tag`,
`createdAt`, `updatedAt`) and respond 201 with it. -/
def postComment (db : Db) (body : CommentRequestBody) (freshId : String)
    (now : Int) : Db × Except (List String) Comment :=
  match insertCommentSafeParse body with
  | .error issues => (db, .error issues)
  | .ok data =>
      let c : Comment :=
        { id := freshId, fileId := data.fileId, parentId := data.parentId,
          name := data.name, email := data.email, content := data.content,
          tag := data.tag.getD "To Do", positionX := data.positionX,
          positionY := data.positionY, timestamp := data.timestamp,
          page := data.page, createdAt := now, updatedAt := now }
      ({ db with comments := db.comments ++ [c] }, .ok c)

/-! ### Heap model of buildCommentTree, for the no-mutation property -/

/-- A JS heap object that `buildCommentTree` can reach: one of the caller's
plain comment objects, or a node the function allocates by
`{ ...comment, replies: [] }`.  The `replies` array holds heap
addresses. -/
inductive HeapObj where
  | plain (c : Comment)
  | node (c : Comment) (replies : List Nat)
deriving DecidableEq, Repr

abbrev Heap := List HeapObj

/-- Pass one on the heap: the input array is the addresses
`0 … cs.length - 1` holding `plain` objects; for each input comment a
fresh `node` copy is allocated at the end of the heap and recorded in the
id map (`map.set`). -/
def pass1 (cs : List Comment) : Heap × List (String × Nat) :=
  cs.foldl (fun st c =>
    (st.1 ++ [HeapObj.node c []], st.2 ++ [(c.id, st.1.length)]))
    (cs.map HeapObj.plain, [])

/-- `map.get(k)`: the latest binding wins, as with `Map.set`. -/
def mapGet (m : List (String × Nat)) (k : String) : Option Nat :=
  (m.reverse.find? (fun kv => decide (kv.1 = k))).map Prod.snd

/-- `parent.replies.push(node)`: in-place mutation of the node object at
address `a`.  (`map.get` only ever yields node addresses, so the fallback
branch is dead.) -/
def pushReply (h : Heap) (a : Nat) (r : Nat) : Heap :=
  match h[a]? with
  | some (HeapObj.node c rs) => h.set a (HeapObj.node c (rs ++ [r]))
  | _ => h

/-- `map.get(parentId)` resolved: push the child node's address into the
parent node's replies when the parent is mapped, drop the comment when
not. -/
def pass2Attach (st : Heap × List Nat) (a : Nat) :
    Option Nat → Heap × List Nat
  | some pa => (pushReply st.1 pa a, st.2)
  | none => st

/-- One iteration of pass two on the heap: attach the comment's node
under its mapped parent when the (truthy) parent id is in the map, drop
it when not, and push it to `roots` when the parent id is falsy. -/
def pass2Step (m : List (String × Nat)) (st : Heap × List Nat)
    (c : Comment) : Heap × List Nat :=
  match mapGet m c.id with
  | none => st
  | some a =>
      match parentRef c with
      | some pid => pass2Attach st a (mapGet m pid)
      | none => (st.1, st.2 ++ [a])

/-- Pass two on the heap, over the whole input array. -/
def pass2 (cs : List Comment) (h0 : Heap) (m : List (String × Nat)) :
    Heap × List Nat :=
  cs.foldl (pass2Step m) (h0, [])

/-- The `createdAt` read by the sort comparators, through an address. -/
def heapCreatedAt (h : Heap) (a : Nat) : Int :=
  match h[a]? with
  | some (HeapObj.plain c) => c.createdAt
  | some (HeapObj.node c _) => c.createdAt
  | none => 0

/-- `.sort((a, b) => createdAt a - createdAt b)` over an address array. -/
def sortAddrs (h : Heap) (l : List Nat) : List Nat :=
  l.insertionSort (fun a b => heapCreatedAt h a ≤ heapCreatedAt h b)

/-- The recursive `sortReplies` pass: sort the replies array of the node
at `a` in place, then recurse into each reply.  `fuel` bounds the
recursion depth. -/
def sortRepliesAt : Nat → Heap → Nat → Heap
  | 0, h, _ => h
  | fuel + 1, h, a =>
      match h[a]? with
      | some (HeapObj.node c rs) =>
          let rs' := sortAddrs h rs
          let h' := h.set a (HeapObj.node c rs')
          rs'.foldl (fun hh b => sortRepliesAt fuel hh b) h'
      | _ => h

/-- The heap keeps the caller's comment objects in the addresses below
`cs.length`, untouched. -/
def plainPrefix (cs : List Comment) (h : Heap) : Prop :=
  h.take cs.length = cs.map HeapObj.plain

/-- The whole of `buildCommentTree` as a heap transformation, returning
the final heap and the sorted roots array of addresses. -/
def runBuildCommentTree (cs : List Comment) : Heap × List Nat :=
  let p1 := pass1 cs
  let p2 := pass2 cs p1.1 p1.2
  let roots := sortAddrs p2.1 p2.2
  (roots.foldl (fun hh a => sortRepliesAt (cs.length + 1) hh a) p2.1, roots)

/-! ### Concrete instances for counterexamples and witnesses -/

def cDangling : Comment := mkComment "a" (some "zzz") 1

def cRoot : Comment := mkComment "b" none 2

def cSelf : Comment := mkComment "s" (some "s") 1

def cTieA : Comment := mkComment "a" none 5

def cTieB : Comment := mkComment "b" none 5

def cycComments : List Comment :=
  [mkComment "a" (some "b") 1, mkComment "b" (some "a") 2, mkComment "c" none 3]

def wRoot : Comment := mkComment "r" none 1

def wChild : Comment := mkComment "k" (some "r") 2

/-- A root comment with the given anchor fields. -/
def mkAnchored (i : String) (t : Int) (px py pg : Option Int) : Comment :=
  { mkComment i none t with positionX := px, positionY := py, page := pg }

/-- Image-anchored roots for the pin witnesses. -/
def wPinA : Comment := mkAnchored "ia" 1 (some 100) (some 200) none

def wPinB : Comment := mkAnchored "ib" 2 (some 300) (some 400) none

/-- PDF-anchored root without on-page position: it occupies a slot of the
numbering domain yet is never rendered. -/
def pdfA : Comment := mkAnchored "pa" 1 none none (some 1)

/-- Fully anchored PDF root. -/
def pdfB : Comment := mkAnchored "pb" 2 (some 10) (some 20) (some 1)

def wProject : Project :=
  { id := "p1", publicId := "pub1", title := "t", userId := "u1",
    createdAt := 0, updatedAt := 0 }

def wEmptyProject : Project :=
  { id := "p2", publicId := "pub2", title := "t2", userId := "u1",
    createdAt := 1, updatedAt := 1 }

def wFile : File :=
  { id := "f1", projectId := "p1", name := "n", originalName := "n",
    mimeType := "image/png", size := "1", objectPath := "/objects/f1",
    publicId := none, uploadedAt := 10 }

/-- A root comment on file `f1` with the given status tag. -/
def mkTagged (i tg : String) (t : Int) : Comment :=
  { mkComment i none t with fileId := "f1", tag := tg }

/-- The §8 test vector: tags `[To Do, Resolved, In Progress, Resolved]`,
`createdAt` values `[100, 95, 98, 97]` (max is the first, not the last
inserted). -/
def wStatsComments : List Comment :=
  [mkTagged "c1" "To Do" 100, mkTagged "c2" "Resolved" 95,
   mkTagged "c3" "In Progress" 98, mkTagged "c4" "Resolved" 97]

def wDb : Db :=
  { projects := [wProject, wEmptyProject], files := [wFile],
    comments := wStatsComments, projectViews := [] }

def emptyDb : Db :=
  { projects := [], files := [], comments := [], projectViews := [] }

/-- A request body whose `content` is the empty string and is otherwise
well-formed. -/
def emptyContentBody : CommentRequestBody :=
  { fileId := some (.str "f1"), parentId := none, name := some (.str "alice"),
    email := none, content := some (.str ""), tag := none, positionX := none,
    positionY := none, timestamp := none, page := none }

/-- A request body missing `name` entirely. -/
def missingNameBody : CommentRequestBody :=
  { fileId := some (.str "f1"), parentId := none, name := none,
    email := none, content := some (.str "hello"), tag := none,
    positionX := none, positionY := none, timestamp := none, page := none }

/-! ### Basic facts about the tree builder -/

theorem comment_buildNode (cs : List Comment) (fuel : Nat) (c : Comment) :
    (buildNode cs fuel c).comment = c := by
  cases fuel <;> rfl

theorem ancestor_succ (cs : List Comment) (k : Nat) (c : Comment) :
    ancestor cs (k + 1) c =
      match parentComment cs c with
      | none => none
      | some p => ancestor cs k p := rfl

theorem ancestor_add (cs : List Comment) (a b : Nat) (c : Comment) :
    ancestor cs (a + b) c = (ancestor cs a c).bind (fun d => ancestor cs b d) := by
  induction a generalizing c with
  | zero => simp [ancestor]
  | succ a ih =>
      have h1 : a + 1 + b = (a + b) + 1 := by omega
      rw [h1, ancestor_succ, ancestor_succ]
      cases parentComment cs c with
      | none => simp
      | some p => simpa using ih p

theorem ancestor_none_mono {cs : List Comment} {k : Nat} {c : Comment}
    (h : ancestor cs k c = none) (m : Nat) : ancestor cs (k + m) c = none := by
  rw [ancestor_add, h]
  rfl

/-- Pumping a cycle on the parent chain. -/
theorem ancestor_cycle {cs : List Comment} {j : Nat} {c : Comment}
    (h : ancestor cs j c = some c) : ∀ m, ancestor cs (m * j) c = some c := by
  intro m
  induction m with
  | zero => simp [ancestor]
  | succ m ih =>
      have : (m + 1) * j = m * j + j := by ring
      rw [this, ancestor_add, ih]
      simpa using h

theorem terminates_of_parentRef_none {cs : List Comment} {c : Comment}
    (h : parentRef c = none) : terminates cs c := by
  refine ⟨1, ?_⟩
  rw [ancestor_succ]
  simp [parentComment, h]

/-- A terminating parent chain admits no nontrivial cycle. -/
theorem no_cycle_of_terminates {cs : List Comment} {c : Comment} {j : Nat}
    (ht : terminates cs c) (h : ancestor cs j c = some c) : j = 0 := by
  by_contra hj
  obtain ⟨k, hk⟩ := ht
  have h1 : ancestor cs (k * j) c = some c := ancestor_cycle h k
  have h2 : k * j = k + (k * j - k) := by
    have : k ≤ k * j := Nat.le_mul_of_pos_right k (Nat.pos_of_ne_zero hj)
    omega
  rw [h2, ancestor_none_mono hk] at h1
  exact Option.noConfusion h1

theorem terminates_of_parentComment {cs : List Comment} {c d : Comment}
    (ht : terminates cs c) (h : parentComment cs d = some c) : terminates cs d := by
  obtain ⟨k, hk⟩ := ht
  refine ⟨1 + k, ?_⟩
  rw [ancestor_add, ancestor_succ]
  simp [h, ancestor, hk]

theorem findById_self {cs : List Comment} (hid : (cs.map Comment.id).Nodup)
    {c : Comment} (hc : c ∈ cs) : findById cs c.id = some c := by
  induction cs with
  | nil => cases hc
  | cons a t ih =>
      rcases List.mem_cons.mp hc with h | h
      · subst h
        unfold findById
        rw [List.find?_cons_of_pos]
        simp
      · have hna : a.id ∉ t.map Comment.id := (List.nodup_cons.mp hid).1
        have hne : a.id ≠ c.id := by
          intro he
          exact hna (he ▸ List.mem_map_of_mem Comment.id h)
        unfold findById
        rw [List.find?_cons_of_neg]
        · exact ih (List.nodup_cons.mp hid).2 h
        · simpa using hne

theorem parentComment_of_child {cs : List Comment}
    (hid : (cs.map Comment.id).Nodup) {c d : Comment} (hc : c ∈ cs)
    (h : parentRef d = some c.id) : parentComment cs d = some c := by
  unfold parentComment
  rw [h]
  exact findById_self hid hc

theorem mem_childComments {cs : List Comment} {c d : Comment} :
    d ∈ childComments cs c ↔ d ∈ cs ∧ parentRef d = some c.id := by
  simp [childComments]

/-- Everything in the subtree built below `c` is an input comment having
`c` on its parent chain. -/
theorem mem_flattenNode_buildNode {cs : List Comment}
    (hid : (cs.map Comment.id).Nodup) :
    ∀ (fuel : Nat) (c : Comment), c ∈ cs →
      ∀ d ∈ flattenNode fuel (buildNode cs fuel c),
        d ∈ cs ∧ ∃ k, ancestor cs k d = some c := by
  intro fuel
  induction fuel with
  | zero =>
      intro c hc d hd
      have : d = c := by simpa [flattenNode, buildNode, CommentWithReplies.comment] using hd
      subst this
      exact ⟨hc, 0, rfl⟩
  | succ fuel ih =>
      intro c hc d hd
      have hd' : d = c ∨
          ∃ e ∈ sortByCreatedAt (childComments cs c),
            d ∈ flattenNode fuel (buildNode cs fuel e) := by
        simpa [flattenNode, buildNode, CommentWithReplies.comment,
          CommentWithReplies.replies, List.map_map, List.mem_flatten] using hd
      rcases hd' with h | ⟨e, he, hde⟩
      · subst h
        exact ⟨hc, 0, rfl⟩
      · have he' : e ∈ childComments cs c :=
          (List.perm_insertionSort byCreatedAt _).mem_iff.mp he
        obtain ⟨hecs, hpr⟩ := mem_childComments.mp he'
        obtain ⟨hdcs, k, hk⟩ := ih e hecs d hde
        refine ⟨hdcs, k + 1, ?_⟩
        rw [ancestor_add, hk]
        show ancestor cs 1 e = some c
        rw [ancestor_succ, parentComment_of_child hid hc hpr]
        rfl

theorem ancestor_one_of_parentComment {cs : List Comment} {e c : Comment}
    (h : parentComment cs e = some c) : ancestor cs 1 e = some c := by
  rw [ancestor_succ, h]
  rfl

theorem ancestor_root_none {cs : List Comment} {r : Comment}
    (hr : parentRef r = none) {j : Nat} (hj : 0 < j) : ancestor cs j r = none := by
  have h1 : ancestor cs 1 r = none := by
    rw [ancestor_succ]
    simp [parentComment, hr]
  have : j = 1 + (j - 1) := by omega
  rw [this]
  exact ancestor_none_mono h1 _

/-- Two distinct children of a terminating comment `c` head disjoint
subtrees: no comment has both on its parent chain. -/
theorem ancestor_child_disjoint_aux {cs : List Comment}
    (hid : (cs.map Comment.id).Nodup) {c e1 e2 d : Comment} (hc : c ∈ cs)
    (ht : terminates cs c) (hp1 : parentRef e1 = some c.id)
    (hp2 : parentRef e2 = some c.id) {k1 k2 : Nat} (hlt : k1 < k2)
    (ha1 : ancestor cs k1 d = some e1)
    (ha2 : ancestor cs k2 d = some e2) : False := by
  have hsplit : k2 = k1 + (k2 - k1) := by omega
  rw [hsplit, ancestor_add, ha1] at ha2
  have ha2' : ancestor cs (k2 - k1) e1 = some e2 := ha2
  have hpc2 : parentComment cs e2 = some c := parentComment_of_child hid hc hp2
  have hstep : ancestor cs (k2 - k1 + 1) e1 = some c := by
    rw [ancestor_add, ha2']
    exact ancestor_one_of_parentComment hpc2
  have hpc1 : parentComment cs e1 = some c := parentComment_of_child hid hc hp1
  have h1e : ancestor cs 1 e1 = some c := ancestor_one_of_parentComment hpc1
  have hcyc : ancestor cs (k2 - k1) c = some c := by
    have h1k : (1 : Nat) + (k2 - k1) = k2 - k1 + 1 := by omega
    have h2 := hstep
    rw [← h1k, ancestor_add, h1e] at h2
    simpa using h2
  have := no_cycle_of_terminates ht hcyc
  omega

theorem ancestor_child_disjoint {cs : List Comment}
    (hid : (cs.map Comment.id).Nodup) {c e1 e2 d : Comment} (hc : c ∈ cs)
    (ht : terminates cs c) (hp1 : parentRef e1 = some c.id)
    (hp2 : parentRef e2 = some c.id) (hne : e1 ≠ e2) {k1 k2 : Nat}
    (ha1 : ancestor cs k1 d = some e1) (ha2 : ancestor cs k2 d = some e2) :
    False := by
  rcases Nat.lt_trichotomy k1 k2 with h | h | h
  · exact ancestor_child_disjoint_aux hid hc ht hp1 hp2 h ha1 ha2
  · subst h
    rw [ha1] at ha2
    exact hne (Option.some.inj ha2)
  · exact ancestor_child_disjoint_aux hid hc ht hp2 hp1 h ha2 ha1

/-- Two distinct roots head disjoint subtrees. -/
theorem ancestor_root_disjoint {cs : List Comment} {r1 r2 d : Comment}
    (hr1 : parentRef r1 = none) (hr2 : parentRef r2 = none) (hne : r1 ≠ r2)
    {k1 k2 : Nat} (ha1 : ancestor cs k1 d = some r1)
    (ha2 : ancestor cs k2 d = some r2) : False := by
  rcases Nat.lt_trichotomy k1 k2 with h | h | h
  · have hsplit : k2 = k1 + (k2 - k1) := by omega
    rw [hsplit, ancestor_add, ha1] at ha2
    have : ancestor cs (k2 - k1) r1 = some r2 := ha2
    rw [ancestor_root_none hr1 (by omega)] at this
    exact Option.noConfusion this
  · subst h
    rw [ha1] at ha2
    exact hne (Option.some.inj ha2)
  · have hsplit : k1 = k2 + (k1 - k2) := by omega
    rw [hsplit, ancestor_add, ha2] at ha1
    have : ancestor cs (k1 - k2) r2 = some r1 := ha1
    rw [ancestor_root_none hr2 (by omega)] at this
    exact Option.noConfusion this

/-- Sum bound used for multiplicity: if each bucket holds at most one copy
and at most one bucket is nonempty, the total is at most one. -/
theorem sum_counts_le_one {α : Type} {l : List α} {g : α → Nat} (hn : l.Nodup)
    (h1 : ∀ e ∈ l, g e ≤ 1)
    (h0 : ∀ e1 ∈ l, ∀ e2 ∈ l, e1 ≠ e2 → g e1 = 0 ∨ g e2 = 0) :
    (l.map g).sum ≤ 1 := by
  induction l with
  | nil => simp
  | cons a t ih =>
      rcases List.nodup_cons.mp hn with ⟨hat, hnt⟩
      rcases Nat.eq_zero_or_pos (g a) with hz | hp
      · have := ih hnt (fun e he => h1 e (List.mem_cons_of_mem a he))
          (fun e1 h1m e2 h2m hne =>
            h0 e1 (List.mem_cons_of_mem a h1m) e2 (List.mem_cons_of_mem a h2m) hne)
        simpa [hz] using this
      · have hzt : ∀ x ∈ t.map g, x = 0 := by
          intro x hx
          obtain ⟨e, he, rfl⟩ := List.mem_map.mp hx
          have hne : a ≠ e := fun h => hat (h ▸ he)
          rcases h0 a (List.mem_cons_self a t) e (List.mem_cons_of_mem a he) hne with h | h
          · omega
          · exact h
        have hsz : (t.map g).sum = 0 := List.sum_eq_zero hzt
        have hga : g a ≤ 1 := h1 a (List.mem_cons_self a t)
        simp [hsz]
        omega

theorem nodup_of_ids_nodup {cs : List Comment}
    (hid : (cs.map Comment.id).Nodup) : cs.Nodup :=
  List.Nodup.of_map Comment.id hid

theorem count_flattenNode_le_one {cs : List Comment}
    (hid : (cs.map Comment.id).Nodup) (d : Comment) :
    ∀ (fuel : Nat) (c : Comment), c ∈ cs → terminates cs c →
      (flattenNode fuel (buildNode cs fuel c)).count d ≤ 1 := by
  intro fuel
  induction fuel with
  | zero =>
      intro c _ _
      simpa [flattenNode] using
        List.count_le_length d (flattenNode 0 (buildNode cs 0 c))
  | succ fuel ih =>
      intro c hc ht
      have heq : flattenNode (fuel + 1) (buildNode cs (fuel + 1) c) =
          c :: ((sortByCreatedAt (childComments cs c)).map
            (fun e => flattenNode fuel (buildNode cs fuel e))).flatten := by
        show _ = _
        simp [flattenNode, buildNode, CommentWithReplies.comment,
          CommentWithReplies.replies, List.map_map]
        rfl
      rw [heq, List.count_cons, List.count_flatten, List.map_map]
      have hch : ∀ e ∈ sortByCreatedAt (childComments cs c),
          e ∈ cs ∧ parentRef e = some c.id := by
        intro e he
        exact mem_childComments.mp ((List.perm_insertionSort byCreatedAt _).mem_iff.mp he)
      have hndch : (sortByCreatedAt (childComments cs c)).Nodup :=
        ((List.perm_insertionSort byCreatedAt _).nodup_iff).mpr
          (List.Nodup.filter _ (nodup_of_ids_nodup hid))
      by_cases hcd : c = d
      · subst hcd
        have hall : ∀ x ∈ (sortByCreatedAt (childComments cs c)).map
            ((fun l => l.count c) ∘ fun e => flattenNode fuel (buildNode cs fuel e)),
            x = 0 := by
          intro x hx
          obtain ⟨e, he, rfl⟩ := List.mem_map.mp hx
          rcases hch e he with ⟨hecs, hpr⟩
          simp only [Function.comp]
          rw [List.count_eq_zero]
          intro hmem
          obtain ⟨_, k, hk⟩ := mem_flattenNode_buildNode hid fuel e hecs c hmem
          have hpc : parentComment cs e = some c := parentComment_of_child hid hc hpr
          have : ancestor cs (k + 1) c = some c := by
            rw [ancestor_add, hk]
            exact ancestor_one_of_parentComment hpc
          have := no_cycle_of_terminates ht this
          omega
        rw [List.sum_eq_zero hall]
        simp
      · have : ((sortByCreatedAt (childComments cs c)).map
            ((fun l => l.count d) ∘ fun e => flattenNode fuel (buildNode cs fuel e))).sum ≤ 1 := by
          apply sum_counts_le_one hndch
          · intro e he
            rcases hch e he with ⟨hecs, hpr⟩
            exact ih e hecs (terminates_of_parentComment ht
              (parentComment_of_child hid hc hpr))
          · intro e1 h1m e2 h2m hne
            by_contra hcon
            push_neg at hcon
            rcases hcon with ⟨hz1, hz2⟩
            have hm1 : d ∈ flattenNode fuel (buildNode cs fuel e1) :=
              List.count_pos_iff.mp (Nat.pos_of_ne_zero hz1)
            have hm2 : d ∈ flattenNode fuel (buildNode cs fuel e2) :=
              List.count_pos_iff.mp (Nat.pos_of_ne_zero hz2)
            rcases hch e1 h1m with ⟨he1cs, hp1⟩
            rcases hch e2 h2m with ⟨he2cs, hp2⟩
            obtain ⟨_, k1, hk1⟩ := mem_flattenNode_buildNode hid fuel e1 he1cs d hm1
            obtain ⟨_, k2, hk2⟩ := mem_flattenNode_buildNode hid fuel e2 he2cs d hm2
            exact ancestor_child_disjoint hid hc ht hp1 hp2 hne hk1 hk2
        have hne' : (c == d) = false := by
          simp [hcd]
        simp only [hne', if_false]
        simpa using this

/-- The roots list of `buildCommentTree`, before sorting. -/
theorem mem_rootFilter {cs : List Comment} {r : Comment} :
    r ∈ cs.filter (fun c => decide (parentRef c = none)) ↔
      r ∈ cs ∧ parentRef r = none := by
  simp

/-- Multiplicity bound for the whole forest, and provenance of its
comments. -/
theorem count_forest_le_one {cs : List Comment}
    (hid : (cs.map Comment.id).Nodup) (d : Comment) :
    (forestComments cs.length (buildCommentTree cs)).count d ≤ 1 := by
  unfold forestComments buildCommentTree
  rw [List.map_map, List.count_flatten, List.map_map]
  set roots := sortByCreatedAt (cs.filter (fun c => decide (parentRef c = none))) with hroots
  have hr : ∀ r ∈ roots, r ∈ cs ∧ parentRef r = none := by
    intro r hrm
    exact mem_rootFilter.mp ((List.perm_insertionSort byCreatedAt _).mem_iff.mp hrm)
  have hnd : roots.Nodup :=
    ((List.perm_insertionSort byCreatedAt _).nodup_iff).mpr
      (List.Nodup.filter _ (nodup_of_ids_nodup hid))
  apply sum_counts_le_one hnd
  · intro r hrm
    rcases hr r hrm with ⟨hrcs, hrn⟩
    exact count_flattenNode_le_one hid d cs.length r hrcs
      (terminates_of_parentRef_none hrn)
  · intro r1 h1m r2 h2m hne
    by_contra hcon
    push_neg at hcon
    rcases hcon with ⟨hz1, hz2⟩
    have hm1 : d ∈ flattenNode cs.length (buildNode cs cs.length r1) :=
      List.count_pos_iff.mp (Nat.pos_of_ne_zero hz1)
    have hm2 : d ∈ flattenNode cs.length (buildNode cs cs.length r2) :=
      List.count_pos_iff.mp (Nat.pos_of_ne_zero hz2)
    rcases hr r1 h1m with ⟨h1cs, h1n⟩
    rcases hr r2 h2m with ⟨h2cs, h2n⟩
    obtain ⟨_, k1, hk1⟩ := mem_flattenNode_buildNode hid cs.length r1 h1cs d hm1
    obtain ⟨_, k2, hk2⟩ := mem_flattenNode_buildNode hid cs.length r2 h2cs d hm2
    exact ancestor_root_disjoint h1n h2n hne hk1 hk2

/-- Every comment of the forest is an input comment with a root of the
input on its parent chain. -/
theorem mem_forest {cs : List Comment} (hid : (cs.map Comment.id).Nodup)
    {d : Comment} (hd : d ∈ forestComments cs.length (buildCommentTree cs)) :
    d ∈ cs ∧ ∃ r, r ∈ cs ∧ parentRef r = none ∧ ∃ k, ancestor cs k d = some r := by
  unfold forestComments buildCommentTree at hd
  rw [List.map_map] at hd
  obtain ⟨l, hl, hdl⟩ := List.mem_flatten.mp hd
  obtain ⟨r, hrm, rfl⟩ := List.mem_map.mp hl
  have hr := mem_rootFilter.mp ((List.perm_insertionSort byCreatedAt _).mem_iff.mp hrm)
  obtain ⟨hdcs, k, hk⟩ :=
    mem_flattenNode_buildNode hid cs.length r hr.1 d hdl
  exact ⟨hdcs, r, hr.1, hr.2, k, hk⟩

/-! ### Order independence and sortedness -/

/-- Two sorted lists that are permutations of one another and whose sort
keys are pairwise distinct coincide. -/
theorem sorted_perm_eq_of_key {α : Type} (key : α → Int) :
    ∀ {l1 l2 : List α}, l1.Perm l2 →
      l1.Pairwise (fun a b => key a ≤ key b) →
      l2.Pairwise (fun a b => key a ≤ key b) →
      l1.Pairwise (fun a b => key a ≠ key b) → l1 = l2 := by
  intro l1
  induction l1 with
  | nil =>
      intro l2 hp _ _ _
      exact (hp.symm.eq_nil).symm
  | cons a t ih =>
      intro l2 hp hs1 hs2 hk1
      cases l2 with
      | nil => exact absurd (hp.eq_nil) (by simp)
      | cons b t2 =>
          have hab : a = b := by
            have hb1 : b ∈ a :: t := hp.symm.mem_iff.mp (List.mem_cons_self b t2)
            have ha2 : a ∈ b :: t2 := hp.mem_iff.mp (List.mem_cons_self a t)
            rcases List.mem_cons.mp hb1 with h | hbt
            · exact h.symm
            rcases List.mem_cons.mp ha2 with h | hat2
            · exact h
            have h1 : key a ≤ key b := List.rel_of_pairwise_cons hs1 hbt
            have h2 : key b ≤ key a := List.rel_of_pairwise_cons hs2 hat2
            have hne : key a ≠ key b := List.rel_of_pairwise_cons hk1 hbt
            exact absurd (le_antisymm h1 h2) hne
          subst hab
          have hp' : t.Perm t2 := hp.cons_inv
          have := ih hp' (List.pairwise_cons.mp hs1).2 (List.pairwise_cons.mp hs2).2
            (List.pairwise_cons.mp hk1).2
          rw [this]

theorem sortByCreatedAt_sorted (l : List Comment) :
    (sortByCreatedAt l).Pairwise byCreatedAt :=
  List.sorted_insertionSort byCreatedAt l

/-- With pairwise distinct `createdAt` keys, sorting is invariant under
permutation of the input — exactly the stability caveat of the stable
JS sort. -/
theorem sortByCreatedAt_perm_eq {l1 l2 : List Comment} (hp : l1.Perm l2)
    (hk : l1.Pairwise (fun a b => a.createdAt ≠ b.createdAt)) :
    sortByCreatedAt l1 = sortByCreatedAt l2 := by
  apply sorted_perm_eq_of_key Comment.createdAt
  · exact (List.perm_insertionSort byCreatedAt l1).trans
      (hp.trans (List.perm_insertionSort byCreatedAt l2).symm)
  · exact sortByCreatedAt_sorted l1
  · exact sortByCreatedAt_sorted l2
  · exact (List.Perm.pairwise_iff (fun h h' => h (h'.symm))
      (List.perm_insertionSort byCreatedAt l1)).mpr hk

theorem pairwise_ne_sublist {l1 l2 : List Comment} (hs : l1.Sublist l2)
    (hk : l2.Pairwise (fun a b => a.createdAt ≠ b.createdAt)) :
    l1.Pairwise (fun a b => a.createdAt ≠ b.createdAt) :=
  List.Pairwise.sublist hs hk

theorem buildNode_perm_eq {cs cs' : List Comment} (hp : cs'.Perm cs)
    (hk : cs.Pairwise (fun a b => a.createdAt ≠ b.createdAt)) :
    ∀ (fuel : Nat) (c : Comment), buildNode cs' fuel c = buildNode cs fuel c := by
  intro fuel
  induction fuel with
  | zero => intro c; rfl
  | succ fuel ih =>
      intro c
      have hk' : cs'.Pairwise (fun a b => a.createdAt ≠ b.createdAt) :=
        (List.Perm.pairwise_iff (fun h h' => h (h'.symm)) hp).mpr hk
      have hchp : (childComments cs' c).Perm (childComments cs c) := hp.filter _
      have hkc : (childComments cs' c).Pairwise
          (fun a b => a.createdAt ≠ b.createdAt) :=
        pairwise_ne_sublist (List.filter_sublist cs') hk'
      have hsort : sortByCreatedAt (childComments cs' c) =
          sortByCreatedAt (childComments cs c) :=
        sortByCreatedAt_perm_eq hchp hkc
      show CommentWithReplies.mk c _ = CommentWithReplies.mk c _
      rw [hsort]
      rw [List.map_congr_left (fun e _ => ih e)]

theorem buildCommentTree_perm_eq {cs cs' : List Comment} (hp : cs'.Perm cs)
    (hk : cs.Pairwise (fun a b => a.createdAt ≠ b.createdAt)) :
    buildCommentTree cs' = buildCommentTree cs := by
  unfold buildCommentTree
  have hk' : cs'.Pairwise (fun a b => a.createdAt ≠ b.createdAt) :=
    (List.Perm.pairwise_iff (fun h h' => h (h'.symm)) hp).mpr hk
  have hfil : (cs'.filter (fun c => decide (parentRef c = none))).Perm
      (cs.filter (fun c => decide (parentRef c = none))) := hp.filter _
  have hsort : sortByCreatedAt (cs'.filter (fun c => decide (parentRef c = none))) =
      sortByCreatedAt (cs.filter (fun c => decide (parentRef c = none))) :=
    sortByCreatedAt_perm_eq hfil (pairwise_ne_sublist (List.filter_sublist cs') hk')
  rw [hsort, hp.length_eq]
  exact List.map_congr_left (fun r _ => buildNode_perm_eq hp hk cs.length r)

theorem buildNode_repliesSorted (cs : List Comment) :
    ∀ (fuel : Nat) (c : Comment), repliesSortedTo fuel (buildNode cs fuel c) := by
  intro fuel
  induction fuel with
  | zero => intro c; trivial
  | succ fuel ih =>
      intro c
      constructor
      · have hmap : (((sortByCreatedAt (childComments cs c)).map
            (buildNode cs fuel)).map CommentWithReplies.comment) =
            sortByCreatedAt (childComments cs c) := by
          rw [List.map_map]
          have : ∀ e ∈ sortByCreatedAt (childComments cs c),
              (CommentWithReplies.comment ∘ buildNode cs fuel) e = id e := by
            intro e _
            simp [Function.comp, comment_buildNode]
          rw [List.map_congr_left this, List.map_id]
        show (((sortByCreatedAt (childComments cs c)).map
            (buildNode cs fuel)).map CommentWithReplies.comment).Pairwise _
        rw [hmap]
        exact sortByCreatedAt_sorted (childComments cs c)
      · intro r hr
        obtain ⟨e, _, rfl⟩ := List.mem_map.mp hr
        exact ih e

/-! ### Claim C1: dangling parents -/

/-- C1, counterexample.  The claim says a comment whose `parentId` is set
but matches no input id appears in the output as a root.  In the code the
`else roots.push` branch is only reached for a falsy `parentId`, so such a
comment is dropped: for the single dangling comment `cDangling` the
returned forest is empty — it appears neither as root nor anywhere else. -/
theorem C1_counterexample :
    cDangling.parentId = some "zzz" ∧ cDangling.id ≠ "zzz" ∧
    (buildCommentTree [cDangling]).length = 0 ∧
    forestComments 1 (buildCommentTree [cDangling]) = [] :=
  ⟨rfl, by decide, by decide, by decide⟩

/-- C1, amended: a comment whose (truthy) `parentId` matches no id in the
input list is silently omitted from the forest returned by
`buildCommentTree` — it is neither a root nor a reply anywhere — and no
error is raised (the builder is total). -/
theorem C1_amended (cs : List Comment) (hid : (cs.map Comment.id).Nodup)
    (c : Comment) (_hc : c ∈ cs) (p : String) (hp : parentRef c = some p)
    (hdangling : ∀ e ∈ cs, e.id ≠ p) :
    c ∉ forestComments cs.length (buildCommentTree cs) := by
  intro hmem
  obtain ⟨_, r, hrcs, hrn, k, hk⟩ := mem_forest hid hmem
  cases k with
  | zero =>
      have hcr : c = r := Option.some.inj hk
      subst hcr
      rw [hp] at hrn
      exact Option.noConfusion hrn
  | succ k =>
      have hpc : parentComment cs c = none := by
        unfold parentComment
        rw [hp]
        unfold findById
        rw [List.find?_eq_none]
        intro e he
        simpa using hdangling e he
      rw [ancestor_succ, hpc] at hk
      exact Option.noConfusion hk

/-- Witness for C1 (amended) at a concrete two-comment store. -/
theorem C1_witness :
    cDangling ∉ forestComments ([cDangling, cRoot]).length
      (buildCommentTree [cDangling, cRoot]) :=
  C1_amended [cDangling, cRoot] (by decide) cDangling (by decide) "zzz"
    (by decide) (by decide)

/-! ### Claim C2: duplication and cycles -/

/-- C2, counterexample.  The claim says every input comment — including a
self-parent — appears exactly once in the forest.  A self-parent comment
is pushed into its own replies and never into `roots`, so it appears zero
times. -/
theorem C2_counterexample :
    cSelf.parentId = some cSelf.id ∧
    (forestComments 1 (buildCommentTree [cSelf])).count cSelf = 0 :=
  ⟨rfl, by decide⟩

/-- C2, amended: for inputs with distinct ids the forest contains each
input comment at most once (comments on parent chains that never reach a
root — self-parents, cycles, dangling ancestors — are omitted), and every
comment of the forest is an input comment.  The at-most-once bound over
the full flattening also rules out a node occurring below itself, i.e. the
forest is acyclic of finite depth. -/
theorem C2_amended (cs : List Comment) (hid : (cs.map Comment.id).Nodup) :
    (∀ d, (forestComments cs.length (buildCommentTree cs)).count d ≤ 1) ∧
    ∀ d ∈ forestComments cs.length (buildCommentTree cs), d ∈ cs :=
  ⟨fun d => count_forest_le_one hid d, fun _ hd => (mem_forest hid hd).1⟩

/-- Witness for C2 (amended) at a store containing the cycle a→b→a and a
well-formed root. -/
theorem C2_witness :
    (forestComments cycComments.length (buildCommentTree cycComments)).count
      (mkComment "c" none 3) ≤ 1 :=
  (C2_amended cycComments (by decide)).1 (mkComment "c" none 3)

/-! ### Claim C3: order independence -/

/-- C3, counterexample.  Two root comments share `createdAt = 5`; the
stable sort keeps their input order, so the two permutations of the same
collection yield forests with different root order — not structurally
identical output. -/
theorem C3_counterexample :
    ([cTieB, cTieA]).Perm [cTieA, cTieB] ∧
    (buildCommentTree [cTieA, cTieB]).map CommentWithReplies.comment =
      [cTieA, cTieB] ∧
    (buildCommentTree [cTieB, cTieA]).map CommentWithReplies.comment =
      [cTieB, cTieA] ∧
    cTieA ≠ cTieB :=
  ⟨by decide, by decide, by decide, by decide⟩

/-- C3, amended: when the `createdAt` keys are pairwise distinct (no sort
ties), `buildCommentTree` yields structurally identical output — the same
node for node and list for list — on every permutation of the input. -/
theorem C3_amended (cs cs' : List Comment)
    (hkeys : cs.Pairwise (fun a b => a.createdAt ≠ b.createdAt))
    (hperm : cs'.Perm cs) : buildCommentTree cs' = buildCommentTree cs :=
  buildCommentTree_perm_eq hperm hkeys

/-- Witness for C3 (amended): swapping a root and its reply in the input
leaves the output unchanged. -/
theorem C3_witness :
    buildCommentTree [wChild, wRoot] = buildCommentTree [wRoot, wChild] :=
  C3_amended [wRoot, wChild] [wChild, wRoot] (by decide) (by decide)

/-! ### Claim C9: roots and replies ordered by creation time -/

/-- C9: the forest returned by `buildCommentTree` lists the roots in
ascending `createdAt` order, and every node's replies list, at every
depth, is ascending by `createdAt`. -/
theorem C9_sorted (cs : List Comment) :
    ((buildCommentTree cs).map CommentWithReplies.comment).Pairwise
      (fun a b => a.createdAt ≤ b.createdAt) ∧
    ∀ n ∈ buildCommentTree cs, repliesSortedTo cs.length n := by
  constructor
  · unfold buildCommentTree
    rw [List.map_map]
    have h : ∀ r ∈ sortByCreatedAt (cs.filter (fun c => decide (parentRef c = none))),
        (CommentWithReplies.comment ∘ buildNode cs cs.length) r = id r := by
      intro r _
      simp [Function.comp, comment_buildNode]
    rw [List.map_congr_left h, List.map_id]
    exact sortByCreatedAt_sorted _
  · intro n hn
    obtain ⟨r, _, rfl⟩ := List.mem_map.mp hn
    exact buildNode_repliesSorted cs cs.length r

/-- Witness for C9 at a concrete two-comment thread. -/
theorem C9_witness :
    ((buildCommentTree [wChild, wRoot]).map CommentWithReplies.comment).Pairwise
      (fun a b => a.createdAt ≤ b.createdAt) :=
  (C9_sorted [wChild, wRoot]).1

/-! ### The aggregator: projection identities and claims C4, C6 -/

theorem projectStats_fileCount (db : Db) (u : String) (p : Project) :
    (projectStats db u p).fileCount = (getFilesByProjectId db p.id).length := rfl

theorem projectStats_total (db : Db) (u : String) (p : Project) :
    (projectStats db u p).totalComments = (projectComments db p.id).length := rfl

theorem projectStats_unresolved (db : Db) (u : String) (p : Project) :
    (projectStats db u p).unresolvedComments =
      ((projectComments db p.id).filter (fun c =>
        decide (c.tag = "To Do") || decide (c.tag = "In Progress"))).length := rfl

theorem projectStats_last (db : Db) (u : String) (p : Project) :
    (projectStats db u p).lastCommentTime =
      if (projectComments db p.id).length > 0 then
        some (maxCreatedAt (projectComments db p.id))
      else none := rfl

theorem projectStats_unread (db : Db) (u : String) (p : Project) :
    (projectStats db u p).hasUnreadComments =
      (projectComments db p.id).any (fun c =>
        decide (((getProjectView db u p.id).map ProjectView.lastViewedAt).getD 0
          < c.createdAt)) := rfl

theorem foldl_max_bounds (xs : List Int) : ∀ x : Int,
    (xs.foldl max x = x ∨ xs.foldl max x ∈ xs) ∧ x ≤ xs.foldl max x ∧
    ∀ s ∈ xs, s ≤ xs.foldl max x := by
  induction xs with
  | nil => exact fun x => ⟨Or.inl rfl, le_refl x, by simp⟩
  | cons a t ih =>
      intro x
      have h := ih (max x a)
      have hfc : (a :: t).foldl max x = t.foldl max (max x a) := rfl
      refine ⟨?_, ?_, ?_⟩
      · rcases h.1 with h1 | h1
        · rcases max_choice x a with hm | hm
          · exact Or.inl (by rw [hfc, h1, hm])
          · refine Or.inr ?_
            rw [hfc, h1, hm]
            exact List.mem_cons_self a t
        · refine Or.inr ?_
          rw [hfc]
          exact List.mem_cons_of_mem a h1
      · rw [hfc]
        exact le_trans (le_max_left x a) h.2.1
      · intro s hs
        rw [hfc]
        rcases List.mem_cons.mp hs with rfl | hst
        · exact le_trans (le_max_right x s) h.2.1
        · exact h.2.2 s hst

theorem maxCreatedAt_spec {l : List Comment} (hne : l ≠ []) :
    maxCreatedAt l ∈ l.map Comment.createdAt ∧
    ∀ s ∈ l.map Comment.createdAt, s ≤ maxCreatedAt l := by
  cases l with
  | nil => exact absurd rfl hne
  | cons c rest =>
      have hfold : maxCreatedAt (c :: rest) =
          (rest.map Comment.createdAt).foldl max c.createdAt := by
        show rest.foldl (fun m d => max m d.createdAt) c.createdAt = _
        rw [List.foldl_map]
      have h := foldl_max_bounds (rest.map Comment.createdAt) c.createdAt
      simp only [List.map_cons]
      constructor
      · rw [hfold]
        rcases h.1 with h1 | h1
        · rw [h1]
          exact List.mem_cons_self _ _
        · exact List.mem_cons_of_mem _ h1
      · intro s hs
        rw [hfold]
        rcases List.mem_cons.mp hs with rfl | hst
        · exact h.2.1
        · exact h.2.2 s hst

/-- C4: `hasUnreadComments` is true iff some comment on some file of the
project has `createdAt` strictly greater than the user's `lastViewedAt`
for that project, where a missing ProjectView row stands for the epoch
(`new Date(0)`, i.e. 0); and a project with zero files aggregates to
`totalComments = 0`, `unresolvedComments = 0`, `lastCommentTime = null`
and `hasUnreadComments = false`. -/
theorem C4_unread (db : Db) (userId : String) (project : Project) :
    ((projectStats db userId project).hasUnreadComments = true ↔
      ∃ f ∈ getFilesByProjectId db project.id,
        ∃ c ∈ getCommentsByFileId db f.id,
          ((getProjectView db userId project.id).map
            ProjectView.lastViewedAt).getD 0 < c.createdAt) ∧
    (getFilesByProjectId db project.id = [] →
      projectStats db userId project =
        { fileCount := 0, totalComments := 0, unresolvedComments := 0,
          lastCommentTime := none, hasUnreadComments := false }) := by
  constructor
  · rw [projectStats_unread, List.any_eq_true]
    simp only [decide_eq_true_eq, projectComments, List.mem_flatten, List.mem_map]
    constructor
    · rintro ⟨c, ⟨l, ⟨f, hf, rfl⟩, hc⟩, hlt⟩
      exact ⟨f, hf, c, hc, hlt⟩
    · rintro ⟨f, hf, c, hc, hlt⟩
      exact ⟨c, ⟨getCommentsByFileId db f.id, ⟨f, hf, rfl⟩, hc⟩, hlt⟩
  · intro hf
    have hpc : projectComments db project.id = [] := by
      unfold projectComments
      rw [hf]
      rfl
    have h1 := projectStats_fileCount db userId project
    have h2 := projectStats_total db userId project
    have h3 := projectStats_unresolved db userId project
    have h4 := projectStats_last db userId project
    have h5 := projectStats_unread db userId project
    rw [hf] at h1
    rw [hpc] at h2 h3 h4 h5
    cases hstats : projectStats db userId project
    simp only [hstats] at h1 h2 h3 h4 h5
    simp at h1 h2 h3 h4 h5
    simp [h1, h2, h3, h4, h5]

/-- Witness for C4 at a concrete store: the project `p2` of `wDb` has no
files. -/
theorem C4_witness :
    projectStats wDb "u1" wEmptyProject =
      { fileCount := 0, totalComments := 0, unresolvedComments := 0,
        lastCommentTime := none, hasUnreadComments := false } :=
  (C4_unread wDb "u1" wEmptyProject).2 (by decide)

/-- C6: `totalComments` is the size of the flattened collection of all
comments of the project's files, `unresolvedComments` counts those tagged
"To Do" or "In Progress", and `lastCommentTime` is the maximum `createdAt`
of the flattened collection (`null` when empty) — a maximum, not the
last-inserted comment's time. -/
theorem C6_stats (db : Db) (userId : String) (project : Project) :
    (projectStats db userId project).totalComments =
      (projectComments db project.id).length ∧
    (projectStats db userId project).unresolvedComments =
      ((projectComments db project.id).filter (fun c =>
        decide (c.tag = "To Do" ∨ c.tag = "In Progress"))).length ∧
    (projectComments db project.id = [] →
      (projectStats db userId project).lastCommentTime = none) ∧
    ∀ t, (projectStats db userId project).lastCommentTime = some t →
      t ∈ (projectComments db project.id).map Comment.createdAt ∧
      ∀ s ∈ (projectComments db project.id).map Comment.createdAt, s ≤ t := by
  refine ⟨projectStats_total db userId project, ?_, ?_, ?_⟩
  · rw [projectStats_unresolved]
    congr 1
    apply List.filter_congr
    intro c _
    simp
  · intro h
    rw [projectStats_last, h]
    rfl
  · intro t ht
    rw [projectStats_last] at ht
    by_cases hl : (projectComments db project.id).length > 0
    · rw [if_pos hl] at ht
      have hne : projectComments db project.id ≠ [] := by
        intro he
        rw [he] at hl
        simp at hl
      have hspec := maxCreatedAt_spec hne
      have : t = maxCreatedAt (projectComments db project.id) :=
        (Option.some.inj ht).symm
      subst this
      exact hspec
    · rw [if_neg hl] at ht
      exact Option.noConfusion ht

/-- Witness for C6 at the §8 test vector (tags To Do/Resolved/In
Progress/Resolved, times 100/95/98/97): the maximum characterisation holds
at `t = 100`. -/
theorem C6_witness :
    (100 : Int) ∈ (projectComments wDb "p1").map Comment.createdAt ∧
    ∀ s ∈ (projectComments wDb "p1").map Comment.createdAt, s ≤ 100 :=
  (C6_stats wDb "u1" wProject).2.2.2 100 (by decide)

/-! ### The view ledger: claim C8 -/

/-- The row-edit function applied by the drizzle `update … where` of
`updateProjectView`. -/
theorem viewRows_of_map {db : Db} (f : ProjectView → ProjectView)
    (hf : ∀ v, (f v).userId = v.userId ∧ (f v).projectId = v.projectId)
    (u' p' : String) :
    (({ db with projectViews := db.projectViews.map f } : Db).projectViews.filter
        (fun v => decide (v.userId = u' ∧ v.projectId = p'))) =
      (db.projectViews.filter
        (fun v => decide (v.userId = u' ∧ v.projectId = p'))).map f := by
  show (db.projectViews.map f).filter _ = _
  rw [List.filter_map]
  congr 1
  apply List.filter_congr
  intro v _
  simp [Function.comp, (hf v).1, (hf v).2]

theorem viewRows_update_some {db : Db} {u p : String} {now : Int} {fid : String}
    (h : (getProjectView db u p).isSome) (u' p' : String) :
    viewRows (updateProjectView db u p now fid) u' p' =
      (viewRows db u' p').map (fun v =>
        if v.userId = u ∧ v.projectId = p then { v with lastViewedAt := now }
        else v) := by
  obtain ⟨v0, hv0⟩ := Option.isSome_iff_exists.mp h
  unfold updateProjectView
  rw [hv0]
  unfold viewRows
  exact viewRows_of_map _ (fun v => by split <;> simp) u' p'

theorem viewRows_update_none {db : Db} {u p : String} {now : Int} {fid : String}
    (h : getProjectView db u p = none) :
    viewRows (updateProjectView db u p now fid) u p =
      [{ id := fid, userId := u, projectId := p, lastViewedAt := now }] := by
  unfold updateProjectView
  rw [h]
  unfold viewRows
  show (db.projectViews ++ _).filter _ = _
  rw [List.filter_append]
  have h1 : db.projectViews.filter
      (fun v => decide (v.userId = u ∧ v.projectId = p)) = [] := by
    rw [List.filter_eq_nil_iff]
    intro v hv
    have hfv := List.find?_eq_none.mp h v hv
    simp only [decide_eq_true_eq] at hfv ⊢
    exact hfv
  rw [h1]
  simp

theorem viewRows_update_none_other {db : Db} {u p : String} {now : Int}
    {fid : String} (h : getProjectView db u p = none) (u' p' : String)
    (hne : ¬(u = u' ∧ p = p')) :
    viewRows (updateProjectView db u p now fid) u' p' = viewRows db u' p' := by
  unfold updateProjectView
  rw [h]
  unfold viewRows
  show (db.projectViews ++ _).filter _ = _
  rw [List.filter_append]
  have h1 : ([({ id := fid, userId := u, projectId := p, lastViewedAt := now } :
      ProjectView)].filter (fun v => decide (v.userId = u' ∧ v.projectId = p'))) = [] := by
    have hfalse : decide (u = u' ∧ p = p') = false := by
      simpa using hne
    simp only [List.filter, hfalse]
  rw [h1, List.append_nil]

theorem getProjectView_mem {db : Db} {u p : String} {v : ProjectView}
    (h : getProjectView db u p = some v) :
    v ∈ viewRows db u p := by
  unfold getProjectView at h
  unfold viewRows
  rw [List.mem_filter]
  refine ⟨List.mem_of_find?_eq_some h, ?_⟩
  simpa using List.find?_some h

theorem getProjectView_isSome_after {db : Db} {u p : String} {now : Int}
    {fid : String} :
    (getProjectView (updateProjectView db u p now fid) u p).isSome := by
  rw [getProjectView, List.find?_isSome]
  cases hv : getProjectView db u p with
  | some v0 =>
      refine ⟨(fun v => if v.userId = u ∧ v.projectId = p then
        { v with lastViewedAt := now } else v) v0, ?_, ?_⟩
      · have := getProjectView_mem hv
        rw [viewRows, List.mem_filter] at this
        show _ ∈ (updateProjectView db u p now fid).projectViews
        unfold updateProjectView
        rw [hv]
        exact List.mem_map_of_mem _ this.1
      · have hmf := getProjectView_mem hv
        rw [viewRows, List.mem_filter, decide_eq_true_eq] at hmf
        simp [hmf.2.1, hmf.2.2]
  | none =>
      refine ⟨{ id := fid, userId := u, projectId := p, lastViewedAt := now }, ?_, ?_⟩
      · show _ ∈ (updateProjectView db u p now fid).projectViews
        unfold updateProjectView
        rw [hv]
        exact List.mem_append_right _ (List.mem_cons_self _ _)
      · simp

/-- C8: `updateProjectView` is an idempotent read-then-write upsert.  It
preserves the at-most-one-row-per-(user, project) invariant, and calling
it twice in succession for a pair leaves exactly one row for that pair,
whose `lastViewedAt` is the second call's time. -/
theorem C8_upsert (db : Db) (u p : String) (t1 t2 : Int) (id1 id2 : String)
    (hinv : ∀ u' p', (viewRows db u' p').length ≤ 1) :
    (∀ u' p',
      (viewRows (updateProjectView db u p t1 id1) u' p').length ≤ 1) ∧
    (viewRows (updateProjectView (updateProjectView db u p t1 id1) u p t2 id2)
        u p).length = 1 ∧
    ∀ v ∈ viewRows (updateProjectView (updateProjectView db u p t1 id1) u p t2 id2)
        u p, v.lastViewedAt = t2 := by
  have hinv1 : ∀ u' p',
      (viewRows (updateProjectView db u p t1 id1) u' p').length ≤ 1 := by
    intro u' p'
    cases hv : getProjectView db u p with
    | some v0 =>
        rw [viewRows_update_some (by rw [hv]; rfl) u' p', List.length_map]
        exact hinv u' p'
    | none =>
        by_cases hup : u = u' ∧ p = p'
        · rcases hup with ⟨rfl, rfl⟩
          rw [viewRows_update_none hv]
          simp
        · rw [viewRows_update_none_other hv u' p' hup]
          exact hinv u' p'
  have hone : (viewRows (updateProjectView db u p t1 id1) u p).length = 1 := by
    cases hv : getProjectView db u p with
    | some v0 =>
        rw [viewRows_update_some (by rw [hv]; rfl) u p, List.length_map]
        have hle := hinv u p
        have hge : 0 < (viewRows db u p).length :=
          List.length_pos.mpr (List.ne_nil_of_mem (getProjectView_mem hv))
        omega
    | none =>
        rw [viewRows_update_none hv]
        rfl
  refine ⟨hinv1, ?_, ?_⟩
  · rw [viewRows_update_some getProjectView_isSome_after u p, List.length_map]
    exact hone
  · intro v hv
    rw [viewRows_update_some getProjectView_isSome_after u p] at hv
    obtain ⟨w, hw, rfl⟩ := List.mem_map.mp hv
    have hwp : w.userId = u ∧ w.projectId = p := by
      have := List.mem_filter.mp hw
      simpa using this.2
    rw [if_pos hwp]

/-- Witness for C8 starting from the empty store. -/
theorem C8_witness :
    (viewRows (updateProjectView (updateProjectView emptyDb "u" "p" 5 "v1")
      "u" "p" 9 "v2") "u" "p").length = 1 :=
  (C8_upsert emptyDb "u" "p" 5 9 "v1" "v2"
    (fun u' p' => by simp [viewRows, emptyDb])).2.1

/-! ### Comment creation validation: claim C7 -/

/-- C7, counterexample: a request whose `content` is the empty string
passes `insertCommentSchema.safeParse` — drizzle-zod maps
`text("content").notNull()` to a bare `z.string()`, which accepts `""` —
and is persisted: after the request the store holds one comment whose
content is `""`.  The claim that an empty `content` (or `name`) fails
before persistence is therefore false. -/
theorem C7_counterexample :
    emptyContentBody.content = some (.str "") ∧
    (postComment emptyDb emptyContentBody "c9" 100).1.comments.map
      Comment.content = [""] ∧
    (postComment emptyDb emptyContentBody "c9" 100).1.comments.length = 1 :=
  ⟨rfl, by decide, by decide⟩

/-- C7, amended: a request in which `name` or `content` is missing or not
a string is rejected before persistence — the store is unchanged and the
caller receives a structured rejection listing the failing field's path.
An empty string, however, is not rejected: it passes validation and is
silently persisted. -/
theorem C7_amended (db : Db) (b : CommentRequestBody) (freshId : String)
    (now : Int) :
    (requiredString b.name = none →
      (postComment db b freshId now).1 = db ∧
      ∃ issues, (postComment db b freshId now).2 = Except.error issues ∧
        "name" ∈ issues) ∧
    (requiredString b.content = none →
      (postComment db b freshId now).1 = db ∧
      ∃ issues, (postComment db b freshId now).2 = Except.error issues ∧
        "content" ∈ issues) := by
  have hgen : ∀ fld, fld ∈ fieldIssues b →
      (postComment db b freshId now).1 = db ∧
      ∃ issues, (postComment db b freshId now).2 = Except.error issues ∧
        fld ∈ issues := by
    intro fld hfld
    have hne : fieldIssues b ≠ [] := List.ne_nil_of_mem hfld
    have hparse : insertCommentSafeParse b = .error (fieldIssues b) := by
      unfold insertCommentSafeParse
      rw [if_neg hne]
    constructor
    · unfold postComment
      rw [hparse]
    · refine ⟨fieldIssues b, ?_, hfld⟩
      unfold postComment
      rw [hparse]
  constructor
  · intro h
    apply hgen
    have hs : (requiredString b.name).isSome = false := by
      rw [h]
      rfl
    simp [fieldIssues, hs]
  · intro h
    apply hgen
    have hs : (requiredString b.content).isSome = false := by
      rw [h]
      rfl
    simp [fieldIssues, hs]

/-- Witness for C7 (amended) at a request missing `name`. -/
theorem C7_witness :
    (postComment emptyDb missingNameBody "c1" 7).1 = emptyDb ∧
    ∃ issues, (postComment emptyDb missingNameBody "c1" 7).2 =
      Except.error issues ∧ "name" ∈ issues :=
  (C7_amended emptyDb missingNameBody "c1" 7).1 (by decide)

/-! ### Pin filtering and numbering: claim C5 -/

theorem imagePins_numbers (cs : List Comment) :
    (imagePins cs).map Prod.snd = List.range' 1 (imageRootComments cs).length := by
  unfold imagePins
  rw [List.map_map]
  have h1 : (Prod.snd ∘ fun ic : Nat × Comment => (ic.2, ic.1 + 1)) =
      (fun n => n + 1) ∘ Prod.fst := rfl
  rw [h1, ← List.map_map, List.enum_map_fst, List.range'_eq_map_range]
  apply List.map_congr_left
  intro a _
  omega

theorem mem_imageRootComments {cs : List Comment} {c : Comment} :
    c ∈ imageRootComments cs ↔
      c ∈ cs ∧ parentRef c = none ∧ c.positionX ≠ none ∧ c.positionY ≠ none := by
  unfold imageRootComments sortByCreatedAt
  rw [(List.perm_insertionSort byCreatedAt _).mem_iff]
  simp [List.mem_filter]

/-- C5, counterexample.  On the PDF path the numbering domain
(`allRootComments`) requires only `page` non-null, while rendering also
requires both positions.  With `pdfA` (page set, positions null,
earliest) and `pdfB` (fully anchored), `pdfB` is the only comment ever
rendered as a pin, yet its displayed number is 2 — the eligible rendered
pins are not numbered 1..N, and `pdfA` occupies a number while never
appearing as a pin. -/
theorem C5_counterexample :
    pdfA.positionX = none ∧
    pdfRootCommentsForPage [pdfA, pdfB] 1 = [pdfB] ∧
    pdfAllRootComments [pdfA, pdfB] = [pdfA, pdfB] ∧
    pdfPinNumber [pdfA, pdfB] pdfB = 2 :=
  ⟨rfl, by decide, by decide, by decide⟩

/-- C5, amended.  For images the claim holds: the rendered pins are
exactly the root comments with both positions non-null, numbered 1..N in
ascending `createdAt` order, and (given pairwise distinct `createdAt`
values) the list and its numbering are independent of the input order.
For PDFs the pins rendered on a page are the roots of that page with both
positions non-null, but a pin's number is its rank in the
ascending-`createdAt` list of ALL roots with `page` non-null (positions
not required); that numbering is independent of the displayed page and of
the input order, and only when every root with `page` set also carries
both positions are the rendered pins (over all pages) exactly the
numbering domain, making them 1..N. -/
theorem C5_amended (cs cs' : List Comment)
    (hkeys : cs.Pairwise (fun a b => a.createdAt ≠ b.createdAt))
    (hperm : cs'.Perm cs) :
    (imageRootComments cs' = imageRootComments cs) ∧
    (∀ c, c ∈ imageRootComments cs ↔
      c ∈ cs ∧ parentRef c = none ∧ c.positionX ≠ none ∧ c.positionY ≠ none) ∧
    ((imagePins cs).map Prod.snd = List.range' 1 (imageRootComments cs).length) ∧
    ((imageRootComments cs).Pairwise (fun a b => a.createdAt ≤ b.createdAt)) ∧
    (pdfAllRootComments cs' = pdfAllRootComments cs) ∧
    (∀ c, pdfPinNumber cs' c = pdfPinNumber cs c) ∧
    ((∀ c ∈ cs, parentRef c = none → c.page ≠ none →
        c.positionX ≠ none ∧ c.positionY ≠ none) →
      ∀ pg, pdfRootCommentsForPage cs pg =
        (pdfAllRootComments cs).filter (fun c => decide (c.page = some pg))) := by
  have hkeys' : cs'.Pairwise (fun a b => a.createdAt ≠ b.createdAt) :=
    (List.Perm.pairwise_iff (fun h h' => h (h'.symm)) hperm).mpr hkeys
  have himg : imageRootComments cs' = imageRootComments cs := by
    unfold imageRootComments
    exact sortByCreatedAt_perm_eq (hperm.filter _)
      (pairwise_ne_sublist (List.filter_sublist cs') hkeys')
  have hpdf : pdfAllRootComments cs' = pdfAllRootComments cs := by
    unfold pdfAllRootComments
    exact sortByCreatedAt_perm_eq (hperm.filter _)
      (pairwise_ne_sublist (List.filter_sublist cs') hkeys')
  refine ⟨himg, fun c => mem_imageRootComments, imagePins_numbers cs,
    sortByCreatedAt_sorted _, hpdf, ?_, ?_⟩
  · intro c
    unfold pdfPinNumber
    rw [hpdf]
  · intro hanch pg
    apply sorted_perm_eq_of_key Comment.createdAt
    · have h1 : (pdfRootCommentsForPage cs pg).Perm
          (cs.filter (fun c => decide (parentRef c = none ∧ c.page = some pg ∧
            c.positionX ≠ none ∧ c.positionY ≠ none))) :=
        List.perm_insertionSort byCreatedAt _
      have h2 : ((pdfAllRootComments cs).filter
          (fun c => decide (c.page = some pg))).Perm
          ((cs.filter (fun c => decide (parentRef c = none ∧ c.page ≠ none))).filter
            (fun c => decide (c.page = some pg))) :=
        (List.perm_insertionSort byCreatedAt _).filter _
      rw [List.filter_filter] at h2
      have h3 : cs.filter (fun c => decide (parentRef c = none ∧ c.page = some pg ∧
            c.positionX ≠ none ∧ c.positionY ≠ none)) =
          cs.filter (fun c => decide (c.page = some pg) &&
            decide (parentRef c = none ∧ c.page ≠ none)) := by
        apply List.filter_congr
        intro c hc
        by_cases hr : parentRef c = none
        · by_cases hpg : c.page = some pg
          · have hne : c.page ≠ none := by
              rw [hpg]
              simp
            have hpos := hanch c hc hr hne
            simp [hr, hpg, hne, hpos.1, hpos.2]
          · simp [hpg]
        · simp [hr]
      exact (h1.trans (by rw [h3])).trans h2.symm
    · exact sortByCreatedAt_sorted _
    · exact List.Pairwise.sublist (List.filter_sublist _) (sortByCreatedAt_sorted _)
    · exact (List.Perm.pairwise_iff (fun h h' => h (h'.symm))
        (List.perm_insertionSort byCreatedAt _)).mpr
        (pairwise_ne_sublist (List.filter_sublist cs) hkeys)

/-- Witness for C5 (amended): swapping two image-anchored roots in the
input leaves the pin list unchanged. -/
theorem C5_witness :
    imageRootComments [wPinB, wPinA] = imageRootComments [wPinA, wPinB] :=
  (C5_amended [wPinA, wPinB] [wPinB, wPinA] (by decide) (by decide)).1

/-! ### The heap model: claim C10 -/

theorem take_set_of_le {α : Type} (l : List α) (a : Nat) (v : α) {n : Nat}
    (h : n ≤ a) : (l.set a v).take n = l.take n := by
  apply List.ext_getElem?
  intro i
  rw [List.getElem?_take, List.getElem?_take]
  split
  · next hi => exact List.getElem?_set_ne (by omega)
  · rfl

theorem plainPrefix_get {cs : List Comment} {h : Heap}
    (hp : plainPrefix cs h) {a : Nat} (ha : a < cs.length) :
    h[a]? = (cs[a]?).map HeapObj.plain := by
  have h1 : (h.take cs.length)[a]? = h[a]? := by
    rw [List.getElem?_take, if_pos ha]
  rw [← h1, hp, List.getElem?_map]

theorem length_le_of_node {cs : List Comment} {h : Heap}
    (hp : plainPrefix cs h) {a : Nat} {c : Comment} {rs : List Nat}
    (hget : h[a]? = some (HeapObj.node c rs)) : cs.length ≤ a := by
  by_contra hlt
  push_neg at hlt
  have hpg := plainPrefix_get hp hlt
  rw [hget] at hpg
  cases hcs : cs[a]? with
  | none =>
      rw [hcs] at hpg
      exact Option.noConfusion hpg
  | some d =>
      rw [hcs] at hpg
      simp at hpg

theorem pushReply_plainPrefix {cs : List Comment} {h : Heap}
    (hp : plainPrefix cs h) (a r : Nat) :
    plainPrefix cs (pushReply h a r) := by
  unfold pushReply
  cases hget : h[a]? with
  | none => exact hp
  | some o =>
      cases o with
      | plain c => exact hp
      | node c rs =>
          have ha := length_le_of_node hp hget
          show plainPrefix cs (h.set a (HeapObj.node c (rs ++ [r])))
          unfold plainPrefix
          rw [take_set_of_le _ _ _ ha]
          exact hp

theorem pass1_fold_spec (cs : List Comment) :
    ∀ (l : List Comment) (h0 : Heap) (m0 : List (String × Nat)),
      plainPrefix cs h0 → cs.length ≤ h0.length →
      (∀ kv ∈ m0, cs.length ≤ kv.2) →
      plainPrefix cs (l.foldl (fun st c =>
        (st.1 ++ [HeapObj.node c []], st.2 ++ [(c.id, st.1.length)]))
        (h0, m0)).1 ∧
      cs.length ≤ (l.foldl (fun st c =>
        (st.1 ++ [HeapObj.node c []], st.2 ++ [(c.id, st.1.length)]))
        (h0, m0)).1.length ∧
      ∀ kv ∈ (l.foldl (fun st c =>
        (st.1 ++ [HeapObj.node c []], st.2 ++ [(c.id, st.1.length)]))
        (h0, m0)).2, cs.length ≤ kv.2 := by
  intro l
  induction l with
  | nil => exact fun h0 m0 hp hl hm => ⟨hp, hl, hm⟩
  | cons c t ih =>
      intro h0 m0 hp hl hm
      apply ih
      · unfold plainPrefix at hp ⊢
        rw [List.take_append_of_le_length hl]
        exact hp
      · simp only [List.length_append, List.length_cons]
        omega
      · intro kv hkv
        rcases List.mem_append.mp hkv with h | h
        · exact hm kv h
        · have : kv = (c.id, h0.length) := by simpa using h
          rw [this]
          exact hl

theorem pass1_spec (cs : List Comment) :
    plainPrefix cs (pass1 cs).1 ∧ ∀ kv ∈ (pass1 cs).2, cs.length ≤ kv.2 := by
  unfold pass1
  have h := pass1_fold_spec cs cs (cs.map HeapObj.plain) []
    (by
      unfold plainPrefix
      rw [show cs.length = (cs.map HeapObj.plain).length by simp, List.take_length])
    (by simp) (by simp)
  exact ⟨h.1, h.2.2⟩

theorem mapGet_ge {cs : List Comment} {m : List (String × Nat)}
    (hm : ∀ kv ∈ m, cs.length ≤ kv.2) {k : String} {a : Nat}
    (h : mapGet m k = some a) : cs.length ≤ a := by
  unfold mapGet at h
  cases hf : m.reverse.find? (fun kv => decide (kv.1 = k)) with
  | none =>
      rw [hf] at h
      exact Option.noConfusion h
  | some kv =>
      rw [hf] at h
      have hkv : kv ∈ m := List.mem_reverse.mp (List.mem_of_find?_eq_some hf)
      have hb := hm kv hkv
      have hva : kv.2 = a := by
        simpa using h
      omega

theorem pass2Step_spec (cs : List Comment) (m : List (String × Nat))
    (hm : ∀ kv ∈ m, cs.length ≤ kv.2) (st : Heap × List Nat) (c : Comment)
    (hp : plainPrefix cs st.1) (hacc : ∀ x ∈ st.2, cs.length ≤ x) :
    plainPrefix cs (pass2Step m st c).1 ∧
    ∀ x ∈ (pass2Step m st c).2, cs.length ≤ x := by
  unfold pass2Step
  cases hmg : mapGet m c.id with
  | none => exact ⟨hp, hacc⟩
  | some a =>
      cases parentRef c with
      | some pid =>
          show plainPrefix cs (pass2Attach st a (mapGet m pid)).1 ∧
            ∀ x ∈ (pass2Attach st a (mapGet m pid)).2, cs.length ≤ x
          cases mapGet m pid with
          | some pa => exact ⟨pushReply_plainPrefix hp pa a, hacc⟩
          | none => exact ⟨hp, hacc⟩
      | none =>
          refine ⟨hp, ?_⟩
          intro x hx
          rcases List.mem_append.mp hx with h | h
          · exact hacc x h
          · have hxa : x = a := by simpa using h
            rw [hxa]
            exact mapGet_ge hm hmg

theorem pass2_fold_spec (cs : List Comment) (m : List (String × Nat))
    (hm : ∀ kv ∈ m, cs.length ≤ kv.2) :
    ∀ (l : List Comment) (st : Heap × List Nat),
      plainPrefix cs st.1 → (∀ x ∈ st.2, cs.length ≤ x) →
      plainPrefix cs (l.foldl (pass2Step m) st).1 ∧
      ∀ x ∈ (l.foldl (pass2Step m) st).2, cs.length ≤ x := by
  intro l
  induction l with
  | nil => exact fun st hp hacc => ⟨hp, hacc⟩
  | cons c t ih =>
      intro st hp hacc
      rw [List.foldl_cons]
      have h := pass2Step_spec cs m hm st c hp hacc
      exact ih (pass2Step m st c) h.1 h.2

theorem sortRepliesAt_plainPrefix (cs : List Comment) :
    ∀ (fuel : Nat) (h : Heap) (a : Nat),
      plainPrefix cs h → plainPrefix cs (sortRepliesAt fuel h a) := by
  intro fuel
  induction fuel with
  | zero => exact fun h a hp => hp
  | succ fuel ih =>
      intro h a hp
      unfold sortRepliesAt
      cases hget : h[a]? with
      | none => exact hp
      | some o =>
          cases o with
          | plain c => exact hp
          | node c rs =>
              have ha := length_le_of_node hp hget
              have hp' : plainPrefix cs (h.set a (HeapObj.node c (sortAddrs h rs))) := by
                unfold plainPrefix
                rw [take_set_of_le _ _ _ ha]
                exact hp
              have hfold : ∀ (l : List Nat) (hh : Heap), plainPrefix cs hh →
                  plainPrefix cs (l.foldl (fun hh b => sortRepliesAt fuel hh b) hh) := by
                intro l
                induction l with
                | nil => exact fun hh hph => hph
                | cons b t iht => exact fun hh hph => iht _ (ih hh b hph)
              exact hfold _ _ hp'

theorem foldl_sortRepliesAt_plainPrefix (cs : List Comment) (fuel : Nat) :
    ∀ (l : List Nat) (h : Heap), plainPrefix cs h →
      plainPrefix cs (l.foldl (fun hh a => sortRepliesAt fuel hh a) h) := by
  intro l
  induction l with
  | nil => exact fun h hp => hp
  | cons a t ih => exact fun h hp => ih _ (sortRepliesAt_plainPrefix cs fuel h a hp)

/-- C10: `buildCommentTree` does not mutate its input.  In the heap
model, the caller's comment objects sit at addresses `0 … cs.length - 1`;
after the whole run they are unchanged, because every output node is a
freshly allocated copy (`{ ...comment, replies: [] }`) living at an
address at or beyond `cs.length` — in particular every returned root
address is fresh — and all pushes and sorts write only to such node
objects. -/
theorem C10_no_mutation (cs : List Comment) :
    (runBuildCommentTree cs).1.take cs.length = cs.map HeapObj.plain ∧
    (runBuildCommentTree cs).2.all (fun a => decide (cs.length ≤ a)) = true := by
  have hp1 := pass1_spec cs
  have hp2 : plainPrefix cs (pass2 cs (pass1 cs).1 (pass1 cs).2).1 ∧
      ∀ x ∈ (pass2 cs (pass1 cs).1 (pass1 cs).2).2, cs.length ≤ x := by
    unfold pass2
    exact pass2_fold_spec cs (pass1 cs).2 hp1.2 cs ((pass1 cs).1, []) hp1.1 (by simp)
  constructor
  · show plainPrefix cs (runBuildCommentTree cs).1
    exact foldl_sortRepliesAt_plainPrefix cs (cs.length + 1) _ _ hp2.1
  · rw [List.all_eq_true]
    intro a ha
    have ha' : a ∈ sortAddrs (pass2 cs (pass1 cs).1 (pass1 cs).2).1
        (pass2 cs (pass1 cs).1 (pass1 cs).2).2 := ha
    have hmem : a ∈ (pass2 cs (pass1 cs).1 (pass1 cs).2).2 :=
      (List.perm_insertionSort _ _).mem_iff.mp ha'
    simpa using hp2.2 a hmem

end ClientLens
